import Mathlib

/-!
Shallow embedding of `cron_parser_py.py`.

Timestamps are modelled at minute resolution as `Nat`: the number of minutes
since 0001-01-01 00:00 in the proleptic Gregorian calendar (the calendar of
Python's `datetime`).  All arithmetic the source performs (`timedelta` of
minutes/hours/days, `replace` of minute/hour) is whole-minute arithmetic, so
this representation is exact; `replace(second=0, microsecond=0)` is the
identity here.  Field texts are modelled as `List Char`.
-/

/-- Days since 0000-03-01 of a Gregorian date (Hinnant's `days_from_civil`). -/
def daysFromCivil (y m d : Nat) : Nat :=
  let yAdj := if m ≤ 2 then y - 1 else y
  let era := yAdj / 400
  let yoe := yAdj % 400
  let mp := if 2 < m then m - 3 else m + 9
  let doy := (153 * mp + 2) / 5 + d - 1
  let doe := 365 * yoe + yoe / 4 - yoe / 100 + doy
  era * 146097 + doe

/-- Gregorian (year, month, day) of a day count since 0000-03-01
(Hinnant's `civil_from_days`). -/
def civilFromDays (z : Nat) : Nat × Nat × Nat :=
  let era := z / 146097
  let doe := z % 146097
  let yoe := (doe - doe / 1460 + doe / 36524 - doe / 146096) / 365
  let doy := doe - (365 * yoe + yoe / 4 - yoe / 100)
  let mp := (5 * doy + 2) / 153
  let d := doy - (153 * mp + 2) / 5 + 1
  let m := if mp < 10 then mp + 3 else mp - 9
  (if m ≤ 2 then era * 400 + yoe + 1 else era * 400 + yoe, m, d)

/-- `datetime(y, m, d, hh, mm)` as minutes since 0001-01-01 00:00. -/
def mkDT (y m d hh mm : Nat) : Nat :=
  (daysFromCivil y m d - 306) * 1440 + hh * 60 + mm

/-- `dt.minute`. -/
def minuteOf (t : Nat) : Nat := t % 60

/-- `dt.hour`. -/
def hourOf (t : Nat) : Nat := t / 60 % 24

/-- `dt.day`. -/
def dayOf (t : Nat) : Nat := (civilFromDays (t / 1440 + 306)).2.2

/-- `dt.month`. -/
def monthOf (t : Nat) : Nat := (civilFromDays (t / 1440 + 306)).2.1

/-- `dt.weekday()`: Python's convention, Monday = 0 .. Sunday = 6.
0001-01-01 (day count 0) is a Monday. -/
def weekdayPy (t : Nat) : Nat := t / 1440 % 7

-- Calendar sanity checks.
example : dayOf (mkDT 2023 1 7 9 0) = 7 := by decide
example : monthOf (mkDT 2023 1 7 9 0) = 1 := by decide
example : weekdayPy (mkDT 2023 1 1 0 0) = 6 := by decide
example : weekdayPy (mkDT 2023 1 7 9 0) = 5 := by decide
example : dayOf (mkDT 2024 2 29 0 0) = 29 := by decide
example : monthOf (mkDT 2024 2 29 0 0) = 2 := by decide
example : mkDT 2023 3 1 0 0 - mkDT 2023 2 28 0 0 = 1440 := by decide
example : mkDT 2024 3 1 0 0 - mkDT 2024 2 29 0 0 = 1440 := by decide
example : mkDT 2023 1 2 0 0 - mkDT 2023 1 1 23 59 = 1 := by decide
example : dayOf (mkDT 2023 12 31 23 59) = 31 := by decide
example : monthOf (mkDT 2023 12 31 23 59) = 12 := by decide

/-- Split a character list at every character satisfying `p`
(like `str.split(sep)`: keeps empty pieces, result is always non-empty). -/
def splitOnP (p : Char → Bool) : List Char → List (List Char)
  | [] => [[]]
  | c :: cs =>
    match splitOnP p cs with
    | [] => [[]]
    | h :: t => if p c then [] :: h :: t else (c :: h) :: t

/-- Python `s.split(sep)` for a one-character separator. -/
def splitOnChar (sep : Char) (l : List Char) : List (List Char) :=
  splitOnP (fun c => c = sep) l

/-- Python whitespace test used by `str.split()`. -/
def isWs (c : Char) : Bool :=
  c = ' ' || c = '\t' || c = '\n' || c = '\r' || c = '\x0b' || c = '\x0c'

/-- Python `s.strip().split()`: split on whitespace runs, dropping empties. -/
def splitWs (l : List Char) : List (List Char) :=
  (splitOnP isWs l).filter (fun f => !f.isEmpty)

/-- ASCII digit test. -/
def isDigitCh (c : Char) : Bool := '0' ≤ c && c ≤ '9'

/-- `re.fullmatch(r'\d+', s)` (also Python `s.isdigit()` on ASCII text):
non-empty and all digits. -/
def allDigits (l : List Char) : Bool := !l.isEmpty && l.all isDigitCh

/-- `int(s)` on a digit string. -/
def toNatDigits (l : List Char) : Nat :=
  l.foldl (fun a c => a * 10 + (c.toNat - 48)) 0

/-- `str(n)`: decimal digits of a natural number. -/
def natToDigitsAux : Nat → Nat → List Char → List Char
  | 0, _, acc => acc
  | f + 1, n, acc =>
    let acc' := Char.ofNat (48 + n % 10) :: acc
    if n < 10 then acc' else natToDigitsAux f (n / 10) acc'

/-- `str(n)` for a natural number. -/
def natToDigits (n : Nat) : List Char := natToDigitsAux (n + 1) n []

/-- The errors the source raises.  `outOfRange`, `invalidRange` and
`invalidStep` are the `ValueError`s raised with an f-string carrying the
field name and the offending text; `unpack` is the anonymous `ValueError`
("too many values to unpack") raised by `range_str, step_str = part.split('/')`
when the atom holds more than one slash; `wrongFieldCount` is the
`ValueError('Cron expression must have five fields')`. -/
inductive CronErr where
  | outOfRange (field : List Char) (value : Nat)
  | invalidRange (field : List Char) (text : List Char)
  | invalidStep (field : List Char) (text : List Char)
  | unpack
  | wrongFieldCount
deriving DecidableEq, Repr

/-- The field name carried by an error's message, if any. -/
def errField : CronErr → Option (List Char)
  | .outOfRange f _ => some f
  | .invalidRange f _ => some f
  | .invalidStep f _ => some f
  | .unpack => none
  | .wrongFieldCount => none

/-- The offending text carried by an error's message, if any. -/
def errText : CronErr → Option (List Char)
  | .outOfRange _ v => some (natToDigits v)
  | .invalidRange _ t => some t
  | .invalidStep _ t => some t
  | .unpack => none
  | .wrongFieldCount => none

/-- `parse_range(range_str, min_, max_, field_name)`. -/
def parse_range (r : List Char) (mn mx : Nat) (name : List Char) :
    Except CronErr (List Nat) :=
  if r = ['*'] then .ok (List.range' mn (mx + 1 - mn))
  else if allDigits r then
    if toNatDigits r < mn ∨ mx < toNatDigits r then
      .error (.outOfRange name (toNatDigits r))
    else .ok [toNatDigits r]
  else
    match splitOnChar '-' r with
    | [a, b] =>
      if allDigits a && allDigits b then
        if toNatDigits b < toNatDigits a ∨ toNatDigits a < mn ∨
            mx < toNatDigits b then
          .error (.invalidRange name r)
        else .ok (List.range' (toNatDigits a) (toNatDigits b + 1 - toNatDigits a))
      else .error (.invalidRange name r)
    | _ => .error (.invalidRange name r)

/-- `parse_part(part, min_, max_, field_name)`. -/
def parse_part (p : List Char) (mn mx : Nat) (name : List Char) :
    Except CronErr (List Nat) :=
  if p.contains '/' then
    match splitOnChar '/' p with
    | [r, s] =>
      match parse_range r mn mx name with
      | .error e => .error e
      | .ok vals =>
        if allDigits s = false ∨ toNatDigits s = 0 then
          .error (.invalidStep name s)
        else .ok (vals.filter (fun v => (v - mn) % toNatDigits s = 0))
    | _ => .error .unpack
  else parse_range p mn mx name

/-- Insert into a strictly ascending list, dropping duplicates. -/
def insertUnique (x : Nat) : List Nat → List Nat
  | [] => [x]
  | y :: ys =>
    if x < y then x :: y :: ys
    else if x = y then y :: ys
    else y :: insertUnique x ys

/-- Python `sorted(set(l))`: the strictly ascending list of distinct values. -/
def sortedSet (l : List Nat) : List Nat := l.foldr insertUnique []

/-- The `for part in field.split(',')` accumulation loop of `parse_field`. -/
def parseParts (parts : List (List Char)) (mn mx : Nat) (name : List Char) :
    Except CronErr (List Nat) :=
  match parts with
  | [] => .ok []
  | p :: ps =>
    match parse_part p mn mx name with
    | .error e => .error e
    | .ok vs =>
      match parseParts ps mn mx name with
      | .error e => .error e
      | .ok rest => .ok (vs ++ rest)

/-- `parse_field(field, min_, max_, field_name)` (the string branch; the
`TypeError` for non-string input is outside a typed embedding). -/
def parse_field (f : List Char) (mn mx : Nat) (name : List Char) :
    Except CronErr (List Nat) :=
  match parseParts (splitOnChar ',' f) mn mx name with
  | .error e => .error e
  | .ok result => .ok (sortedSet result)

/-- Insertion into an ascending list keeping duplicates (for `sorted`). -/
def insLe (x : Nat) : List Nat → List Nat
  | [] => [x]
  | y :: ys => if x ≤ y then x :: y :: ys else y :: insLe x ys

/-- Python `sorted(l)` on a list of integers. -/
def pySorted (l : List Nat) : List Nat := l.foldr insLe []

/-- `to_next_value(current, candidates, min_, max_)`. -/
def to_next_value (current : Nat) (cands : List Nat) (mn mx : Nat) : Nat :=
  match (pySorted cands).find? (fun c => current ≤ c) with
  | some c => c - current
  | none => cands.headD 0 + mx + mn + 1 - current

/-- `MONTH_MAP`, in source order. -/
def monthTable : List (List Char × Nat) :=
  [("JAN".data, 1), ("FEB".data, 2), ("MAR".data, 3), ("APR".data, 4),
   ("MAY".data, 5), ("JUN".data, 6), ("JUL".data, 7), ("AUG".data, 8),
   ("SEP".data, 9), ("OCT".data, 10), ("NOV".data, 11), ("DEC".data, 12)]

/-- `DOW_MAP`, in source order. -/
def dowTable : List (List Char × Nat) :=
  [("SUN".data, 0), ("MON".data, 1), ("TUE".data, 2), ("WED".data, 3),
   ("THU".data, 4), ("FRI".data, 5), ("SAT".data, 6)]

/-- First table key that is a prefix of `l` (the regex alternation
`'|'.join(map.keys())` tries the alternatives in table order), together
with its value and the rest of `l` after the key. -/
def lookupPrefix (table : List (List Char × Nat)) (l : List Char) :
    Option (Nat × List Char) :=
  match table with
  | [] => none
  | (k, v) :: rest =>
    if k.isPrefixOf l then some (v, l.drop k.length)
    else lookupPrefix rest l

/-- `re.sub('|'.join(map.keys()), repl, field)`: scan left to right; at each
position replace the first matching key by its numeric string, else keep the
character.  `fuel` bounds the recursion (`l.length` suffices, as every step
consumes at least one character). -/
def replaceNames (table : List (List Char × Nat)) : Nat → List Char → List Char
  | _, [] => []
  | 0, l => l
  | f + 1, c :: cs =>
    match lookupPrefix table (c :: cs) with
    | some (v, rest) => natToDigits v ++ replaceNames table f rest
    | none => c :: replaceNames table f cs

/-- `replace_month_string(field)`. -/
def replace_month_string (field : List Char) : List Char :=
  replaceNames monthTable field.length field

/-- `replace_dow_string(field)`. -/
def replace_dow_string (field : List Char) : List Char :=
  replaceNames dowTable field.length field

/-- The hour step of `shift_time` (lines 71-75 of the source): compute the
hour delta by the next-or-wrap search; when positive, advance by that many
hours and reset the minute to `minutes[0]`. -/
def shiftTimeHour (t2 : Nat) (minutes hours : List Nat) : Nat :=
  if 0 < to_next_value (t2 / 60 % 24) hours 0 23 then
    t2 + to_next_value (t2 / 60 % 24) hours 0 23 * 60
      - (t2 + to_next_value (t2 / 60 % 24) hours 0 23 * 60) % 60
      + minutes.headD 0
  else t2

/-- `shift_time(dt, minutes, hours)`: the minute step (advance by the
next-or-wrap minute delta, then `replace(minute=minutes[0])` when the landed
minute is not in the set), followed by the hour step. -/
def shift_time (t : Nat) (minutes hours : List Nat) : Nat :=
  shiftTimeHour
    (if (t + to_next_value (t % 60) minutes 0 59) % 60 ∈ minutes
     then t + to_next_value (t % 60) minutes 0 59
     else t + to_next_value (t % 60) minutes 0 59
        - (t + to_next_value (t % 60) minutes 0 59) % 60 + minutes.headD 0)
    minutes hours

/-- `shift_date(dt, dom, month, dow)`.  The source's `while True` walk has no
bound and can diverge (spec §9); `fuel` makes the embedding total, with
`none` meaning the walk did not finish within `fuel` steps. -/
def shift_date (fuel : Nat) (t : Nat) (dom mon dow : List Nat) : Option Nat :=
  match fuel with
  | 0 => none
  | f + 1 =>
    if dayOf t ∈ dom ∧ monthOf t ∈ mon ∧ weekdayPy t ∈ dow then some t
    else shift_date f (t + 1440 - (t + 1440) % 1440) dom mon dow

/-- The five parsed fields owned by a `CronScheduleIterator`. -/
structure CronSched where
  minute : List Nat
  hour : List Nat
  dom : List Nat
  month : List Nat
  dow : List Nat
deriving DecidableEq, Repr

/-- A `CronScheduleIterator`: parsed fields plus the cursor timestamp. -/
structure CronIter where
  sched : CronSched
  current : Nat
deriving DecidableEq, Repr

/-- `CronScheduleIterator.__init__`: maps 7 to 0 in the day-of-week list and
sets the cursor to the start (already at minute resolution here) plus one
minute. -/
def mkCronIter (minute hour dom month dow : List Nat) (start : Nat) :
    CronIter :=
  ⟨⟨minute, hour, dom, month, dow.map (fun d => if d = 7 then 0 else d)⟩,
   start + 1⟩

/-- `CronScheduleIterator.__next__` on a given cursor: one pass of
`shift_time` then `shift_date`, with the defensive `dt < self.current`
check raising `StopIteration` (modelled as `none`; `none` also covers
`shift_date` running out of fuel). -/
def cron_next (fuel : Nat) (s : CronSched) (current : Nat) : Option Nat :=
  match shift_date fuel (shift_time current s.minute s.hour) s.dom s.month
      s.dow with
  | none => none
  | some dt => if dt < current then none else some dt

/-- The first `n` timestamps yielded by repeatedly calling `__next__`,
threading the cursor `self.current = dt + timedelta(minutes=1)`. -/
def cronRun (fuel : Nat) (s : CronSched) : Nat → Nat → List Nat
  | 0, _ => []
  | n + 1, cur =>
    match cron_next fuel s cur with
    | none => []
    | some dt => dt :: cronRun fuel s n (dt + 1)

/-- `parse_cron_expression(expr, start_date)` (string branch; `start` is the
caller's start timestamp, already at minute resolution in this model). -/
def parse_cron_expression (expr : List Char) (start : Nat) :
    Except CronErr CronIter :=
  match splitWs expr with
  | [f0, f1, f2, f3, f4] =>
    match parse_field f0 0 59 ("minute".data) with
    | .error e => .error e
    | .ok minute =>
    match parse_field f1 0 23 ("hour".data) with
    | .error e => .error e
    | .ok hour =>
    match parse_field f2 1 31 ("day of month".data) with
    | .error e => .error e
    | .ok dom =>
    match parse_field (replace_month_string f3) 1 12 ("month".data) with
    | .error e => .error e
    | .ok month =>
    match parse_field (replace_dow_string f4) 0 7 ("day of week".data) with
    | .error e => .error e
    | .ok dow =>
      let dow2 := if 7 ∈ dow then dow.map (fun d => if d = 7 then 0 else d)
                  else dow
      .ok (mkCronIter minute hour dom month dow2 start)
  | _ => .error .wrongFieldCount

/-- Spec §4.4's day-of-week encoding (a second definition following the
spec's words, for comparison with the code's `weekdayPy`): Sunday = 0 ..
Saturday = 6. -/
def sundayWeekday (t : Nat) : Nat := (t / 1440 + 1) % 7

/-- Spec §4.2's base atom shapes (a definition following the spec's words):
`*`, a number `N`, or a range `N-M`. -/
def baseShape (r : List Char) : Bool :=
  r == ['*'] || allDigits r ||
    (match splitOnChar '-' r with
     | [a, b] => allDigits a && allDigits b
     | _ => false)

/-- Spec §4.2's four valid atom shapes (a definition following the spec's
words): a base shape, optionally followed by `/S` with `S` a positive
integer. -/
def shapeOk (p : List Char) : Bool :=
  match splitOnChar '/' p with
  | [r] => baseShape r
  | [r, s] => baseShape r && (allDigits s && toNatDigits s != 0)
  | _ => false

/-- A field text decomposed into tokens: a table entry (symbolic name) or a
plain character. -/
def renderToks : List (List Char × Nat ⊕ Char) → List Char
  | [] => []
  | .inl (k, _) :: ts => k ++ renderToks ts
  | .inr c :: ts => c :: renderToks ts

/-- The equivalent numeric field text: each symbolic name replaced by the
decimal digits of its table value, other characters unchanged. -/
def renderNum : List (List Char × Nat ⊕ Char) → List Char
  | [] => []
  | .inl (_, v) :: ts => natToDigits v ++ renderNum ts
  | .inr c :: ts => c :: renderNum ts

/-- Well-formed token list for a table: every name token is a table entry and
every plain character is not an upper-case letter (so it cannot start a
table key). -/
def toksOkB (table : List (List Char × Nat))
    (toks : List (List Char × Nat ⊕ Char)) : Bool :=
  toks.all (fun t =>
    match t with
    | .inl kv => decide (kv ∈ table)
    | .inr c => !(decide ('A' ≤ c) && decide (c ≤ 'Z')))

-- Resolver sanity checks.
example : replace_month_string ("JAN,MAR".data) = "1,3".data := rfl
example : replace_dow_string ("MON-FRI".data) = "1-5".data := rfl
example : replace_dow_string ("SAT,SUN".data) = "6,0".data := rfl

-- Iterator sanity checks: the spec's scenarios and the two divergences.
example :
    (parse_cron_expression ("*/15 * * * *".data) (mkDT 2023 1 1 0 5)).map
      (fun it => cronRun 40 it.sched 4 it.current) =
    .ok [mkDT 2023 1 1 0 15, mkDT 2023 1 1 0 30, mkDT 2023 1 1 0 45,
      mkDT 2023 1 1 1 0] := rfl

example :
    (parse_cron_expression ("0 0 1 1 *".data) (mkDT 2023 6 15 10 0)).map
      (fun it => cronRun 400 it.sched 1 it.current) =
    .ok [mkDT 2024 1 1 0 0] := rfl

example :
    (parse_cron_expression ("30 12 1 * *".data) (mkDT 2023 1 2 0 0)).map
      (fun it => cronRun 100 it.sched 1 it.current) =
    .ok [mkDT 2023 2 1 0 0] := rfl

example :
    (parse_cron_expression ("0 9 * * MON-FRI".data) (mkDT 2023 1 6 10 0)).map
      (fun it => cronRun 100 it.sched 1 it.current) =
    .ok [mkDT 2023 1 7 9 0] := rfl

-- Parser sanity checks (the spec's §8 examples).
example : parse_field ("*".data) 0 59 ("minute".data) =
    .ok (List.range' 0 60) := rfl
example : parse_field ("*/15".data) 0 59 ("minute".data) =
    .ok [0, 15, 30, 45] := rfl
example : parse_field ("10-12,5".data) 0 23 ("hour".data) =
    .ok [5, 10, 11, 12] := rfl
example : parse_field ("60".data) 0 59 ("minute".data) =
    .error (.outOfRange ("minute".data) 60) := rfl
example : parse_field ("5-3".data) 0 59 ("minute".data) =
    .error (.invalidRange ("minute".data) ("5-3".data)) := rfl
example : parse_field ("*/15".data) 0 23 ("hour".data) = .ok [0, 15] := rfl
example : parse_field ("1-2/15".data) 0 59 ("minute".data) = .ok [] := rfl
example : parse_field ("1/2/3".data) 0 59 ("minute".data) = .error .unpack := rfl
example : to_next_value 46 [0, 15, 30, 45] 0 59 = 14 := by decide
example : to_next_value 6 [0, 15, 30, 45] 0 59 = 9 := by decide

example : splitOnChar ',' ("10-12,5".data) = ["10-12".data, "5".data] := by decide
example : splitOnChar '/' ("1/2/3".data) = ["1".data, "2".data, "3".data] := by decide
example : splitWs ("  */15 * * * *  ".data) =
    ["*/15".data, "*".data, "*".data, "*".data, "*".data] := by decide
example : toNatDigits ("0015".data) = 15 := by decide
example : natToDigits 12 = "12".data := by decide
example : natToDigits 0 = "0".data := by decide

example : sundayWeekday (mkDT 2023 1 1 0 0) = 0 := by decide
example : sundayWeekday (mkDT 2023 1 7 9 0) = 6 := by decide
example : shapeOk ("*/15".data) = true := by decide
example : shapeOk ("1/2/3".data) = false := by decide
example : shapeOk ("10-12".data) = true := by decide
example : shapeOk ("x".data) = false := by decide

/-! ### Lemmas about `insertUnique` / `sortedSet` -/

theorem mem_insertUnique (x y : Nat) (l : List Nat) :
    y ∈ insertUnique x l ↔ y = x ∨ y ∈ l := by
  induction l with
  | nil => simp [insertUnique]
  | cons z zs ih =>
    unfold insertUnique
    split_ifs with h1 h2
    · simp only [List.mem_cons]
    · subst h2
      simp only [List.mem_cons]
      tauto
    · simp only [List.mem_cons, ih]
      tauto

theorem chain'_insertUnique (x : Nat) (l : List Nat)
    (h : List.Chain' (· < ·) l) :
    List.Chain' (· < ·) (insertUnique x l) := by
  induction l with
  | nil => simp [insertUnique]
  | cons z zs ih =>
    unfold insertUnique
    split_ifs with h1 h2
    · exact List.chain'_cons.mpr ⟨h1, h⟩
    · exact h
    · have hch : List.Chain' (· < ·) zs := (List.chain'_cons'.mp h).2
      refine List.chain'_cons'.mpr ⟨?_, ih hch⟩
      intro w hw
      cases zs with
      | nil =>
        simp [insertUnique] at hw
        omega
      | cons u us =>
        have hzu : z < u := (List.chain'_cons'.mp h).1 u rfl
        unfold insertUnique at hw
        split_ifs at hw with h3 h4 <;> simp at hw <;> omega

theorem chain'_sortedSet (l : List Nat) :
    List.Chain' (· < ·) (sortedSet l) := by
  induction l with
  | nil => simp [sortedSet]
  | cons x xs ih => exact chain'_insertUnique x (sortedSet xs) ih

theorem mem_sortedSet (y : Nat) (l : List Nat) :
    y ∈ sortedSet l ↔ y ∈ l := by
  induction l with
  | nil => simp [sortedSet]
  | cons x xs ih =>
    show y ∈ insertUnique x (sortedSet xs) ↔ _
    rw [mem_insertUnique]
    simp [ih]

/-! ### Lemmas about `pySorted` -/

theorem mem_insLe (x y : Nat) (l : List Nat) :
    y ∈ insLe x l ↔ y = x ∨ y ∈ l := by
  induction l with
  | nil => simp [insLe]
  | cons z zs ih =>
    unfold insLe
    split_ifs with h1
    · simp only [List.mem_cons]
    · simp only [List.mem_cons, ih]
      tauto

theorem mem_pySorted (y : Nat) (l : List Nat) :
    y ∈ pySorted l ↔ y ∈ l := by
  induction l with
  | nil => simp [pySorted]
  | cons x xs ih =>
    show y ∈ insLe x (pySorted xs) ↔ _
    rw [mem_insLe]
    simp [ih]

/-! ### Bounds of parsed fields -/

theorem parse_range_bounds (r : List Char) (mn mx : Nat) (name : List Char)
    (vals : List Nat) (h : parse_range r mn mx name = .ok vals) :
    ∀ v ∈ vals, mn ≤ v ∧ v ≤ mx := by
  unfold parse_range at h
  split at h
  · cases h
    intro v hv
    rw [List.mem_range'_1] at hv
    omega
  · split at h
    · split at h
      · exact Except.noConfusion h
      · cases h
        intro v hv
        simp at hv
        omega
    · split at h
      · split at h
        · split at h
          · exact Except.noConfusion h
          · cases h
            intro v hv
            rw [List.mem_range'_1] at hv
            omega
        · exact Except.noConfusion h
      · exact Except.noConfusion h

theorem parse_part_bounds (p : List Char) (mn mx : Nat) (name : List Char)
    (vals : List Nat) (h : parse_part p mn mx name = .ok vals) :
    ∀ v ∈ vals, mn ≤ v ∧ v ≤ mx := by
  unfold parse_part at h
  split at h
  · split at h
    · split at h
      · exact Except.noConfusion h
      · rename_i vs heq
        split at h
        · exact Except.noConfusion h
        · cases h
          intro v hv
          rw [List.mem_filter] at hv
          exact parse_range_bounds _ mn mx name vs heq v hv.1
    · exact Except.noConfusion h
  · exact parse_range_bounds p mn mx name vals h

theorem parseParts_bounds (parts : List (List Char)) (mn mx : Nat)
    (name : List Char) (vals : List Nat)
    (h : parseParts parts mn mx name = .ok vals) :
    ∀ v ∈ vals, mn ≤ v ∧ v ≤ mx := by
  induction parts generalizing vals with
  | nil =>
    unfold parseParts at h
    cases h
    intro v hv
    cases hv
  | cons p ps ih =>
    unfold parseParts at h
    split at h
    · exact Except.noConfusion h
    · rename_i vs hp
      split at h
      · exact Except.noConfusion h
      · rename_i rest hps
        cases h
        intro v hv
        rw [List.mem_append] at hv
        rcases hv with hv | hv
        · exact parse_part_bounds p mn mx name vs hp v hv
        · exact ih rest hps v hv

/-! ### Advancement lemmas -/

theorem tnv_minute_mem (t : Nat) (minutes : List Nat) (hne : minutes ≠ [])
    (hb : ∀ v ∈ minutes, v ≤ 59) :
    (t + to_next_value (t % 60) minutes 0 59) % 60 ∈ minutes := by
  unfold to_next_value
  cases hf : (pySorted minutes).find? (fun c => t % 60 ≤ c) with
  | some c =>
    have hc : t % 60 ≤ c := by simpa using List.find?_some hf
    have hcm : c ∈ minutes :=
      (mem_pySorted c minutes).mp (List.mem_of_find?_eq_some hf)
    have hc59 : c ≤ 59 := hb c hcm
    show (t + (c - t % 60)) % 60 ∈ minutes
    have he : (t + (c - t % 60)) % 60 = c := by omega
    rw [he]
    exact hcm
  | none =>
    cases minutes with
    | nil => exact absurd rfl hne
    | cons m ms =>
      have hm : m ≤ 59 := hb m (List.mem_cons_self m ms)
      show (t + (m + 59 + 0 + 1 - t % 60)) % 60 ∈ m :: ms
      have he : (t + (m + 59 + 0 + 1 - t % 60)) % 60 = m := by omega
      rw [he]
      exact List.mem_cons_self m ms

theorem shiftTimeHour_ge (t2 : Nat) (minutes hours : List Nat) :
    t2 ≤ shiftTimeHour t2 minutes hours := by
  unfold shiftTimeHour
  split_ifs with hah
  · have h59 : (t2 + to_next_value (t2 / 60 % 24) hours 0 23 * 60) % 60 ≤ 59 :=
      Nat.le_of_lt_succ (Nat.mod_lt _ (by omega))
    omega
  · exact Nat.le_refl t2

theorem shift_time_ge (t : Nat) (minutes hours : List Nat)
    (hne : minutes ≠ []) (hb : ∀ v ∈ minutes, v ≤ 59) :
    t ≤ shift_time t minutes hours := by
  unfold shift_time
  rw [if_pos (tnv_minute_mem t minutes hne hb)]
  calc t ≤ t + to_next_value (t % 60) minutes 0 59 := Nat.le_add_right _ _
    _ ≤ _ := shiftTimeHour_ge _ minutes hours

theorem shift_date_ge (fuel t : Nat) (dom mon dow : List Nat) (t' : Nat)
    (h : shift_date fuel t dom mon dow = some t') : t ≤ t' := by
  induction fuel generalizing t with
  | zero => exact Option.noConfusion h
  | succ f ih =>
    unfold shift_date at h
    split_ifs at h with hc
    · cases h
      exact Nat.le_refl _
    · have := ih (t + 1440 - (t + 1440) % 1440) h
      omega

theorem cron_next_some (fuel : Nat) (s : CronSched) (cur dt : Nat)
    (h : cron_next fuel s cur = some dt) :
    cur ≤ dt ∧
    shift_date fuel (shift_time cur s.minute s.hour) s.dom s.month s.dow =
      some dt := by
  unfold cron_next at h
  split at h
  · exact Option.noConfusion h
  · rename_i dt' hsd
    split_ifs at h with hlt
    cases h
    exact ⟨Nat.le_of_not_lt hlt, hsd⟩

theorem cronRun_mono (fuel : Nat) (s : CronSched) :
    ∀ n cur, List.Chain' (· < ·) (cronRun fuel s n cur) ∧
      ∀ x ∈ cronRun fuel s n cur, cur ≤ x := by
  intro n
  induction n with
  | zero =>
    intro cur
    exact ⟨List.chain'_nil, fun x hx => absurd hx (List.not_mem_nil x)⟩
  | succ n ih =>
    intro cur
    unfold cronRun
    cases hcn : cron_next fuel s cur with
    | none =>
      exact ⟨List.chain'_nil, fun x hx => absurd hx (List.not_mem_nil x)⟩
    | some dt =>
      obtain ⟨hle, -⟩ := cron_next_some fuel s cur dt hcn
      have hrest := ih (dt + 1)
      constructor
      · show List.Chain' (· < ·) (dt :: cronRun fuel s n (dt + 1))
        refine List.chain'_cons'.mpr ⟨?_, hrest.1⟩
        intro y hy
        have := hrest.2 y (List.mem_of_mem_head? hy)
        omega
      · show ∀ x ∈ dt :: cronRun fuel s n (dt + 1), cur ≤ x
        intro x hx
        rcases List.mem_cons.mp hx with rfl | hx
        · exact hle
        · have := hrest.2 x hx
          omega

/-! ### Splitting lemmas -/

theorem splitOnP_ne_nil (p : Char → Bool) (l : List Char) :
    splitOnP p l ≠ [] := by
  cases l with
  | nil => simp [splitOnP]
  | cons c cs =>
    unfold splitOnP
    cases h : splitOnP p cs with
    | nil => simp
    | cons hh tt => split_ifs <;> simp

theorem splitOnP_no (p : Char → Bool) (l : List Char)
    (h : ∀ c ∈ l, p c = false) : splitOnP p l = [l] := by
  induction l with
  | nil => rfl
  | cons c cs ih =>
    have h1 := ih (fun d hd => h d (List.mem_cons_of_mem c hd))
    have h2 := h c (List.mem_cons_self c cs)
    simp [splitOnP, h1, h2]

theorem splitOnP_pair (p : Char → Bool) (sep : Char) (r s : List Char)
    (hsep : p sep = true)
    (hr : ∀ c ∈ r, p c = false) (hs : ∀ c ∈ s, p c = false) :
    splitOnP p (r ++ sep :: s) = [r, s] := by
  induction r with
  | nil =>
    have h1 := splitOnP_no p s hs
    simp [splitOnP, h1, hsep]
  | cons c r' ih =>
    have h1 := ih (fun d hd => hr d (List.mem_cons_of_mem c hd))
    have h2 := hr c (List.mem_cons_self c r')
    simp [splitOnP, h1, h2]

theorem splitOnChar_pair (sep : Char) (r s : List Char)
    (hr : sep ∉ r) (hs : sep ∉ s) :
    splitOnChar sep (r ++ sep :: s) = [r, s] := by
  apply splitOnP_pair
  · simp
  · intro c hc
    simp only [decide_eq_false_iff_not]
    rintro rfl
    exact hr hc
  · intro c hc
    simp only [decide_eq_false_iff_not]
    rintro rfl
    exact hs hc

theorem splitOnChar_single (sep : Char) (l : List Char) (h : sep ∉ l) :
    splitOnChar sep l = [l] := by
  apply splitOnP_no
  intro c hc
  simp only [decide_eq_false_iff_not]
  rintro rfl
  exact h hc

theorem splitOnP_length_two (p : Char → Bool) (l : List Char) (c : Char)
    (hc : c ∈ l) (hp : p c = true) : 2 ≤ (splitOnP p l).length := by
  induction l with
  | nil => cases hc
  | cons d ds ih =>
    rcases List.mem_cons.mp hc with rfl | hmem
    · cases hsp : splitOnP p ds with
      | nil => exact absurd hsp (splitOnP_ne_nil p ds)
      | cons hh tt =>
        simp only [splitOnP, hsp, hp, if_true]
        simp only [List.length_cons]
        omega
    · have h2 := ih hmem
      cases hsp : splitOnP p ds with
      | nil => exact absurd hsp (splitOnP_ne_nil p ds)
      | cons hh tt =>
        rw [hsp] at h2
        simp only [List.length_cons] at h2
        simp only [splitOnP, hsp]
        split_ifs <;> simp only [List.length_cons] <;> omega

theorem splitOnChar_length_two (sep : Char) (l : List Char) (h : sep ∈ l) :
    2 ≤ (splitOnChar sep l).length :=
  splitOnP_length_two _ l sep h (by simp)

theorem contains_eq_false_of_not_mem (l : List Char) (a : Char) (h : a ∉ l) :
    l.contains a = false := by
  rcases hb : l.contains a with _ | _
  · rfl
  · exact absurd (List.elem_iff.mp hb) h

/-! ### Error lemmas for the parser -/

theorem parse_range_of_baseShape_false (r : List Char) (mn mx : Nat)
    (name : List Char) (h : baseShape r = false) :
    parse_range r mn mx name = .error (.invalidRange name r) := by
  unfold baseShape at h
  rw [Bool.or_eq_false_iff, Bool.or_eq_false_iff] at h
  obtain ⟨⟨hstar, hdig⟩, hmatch⟩ := h
  unfold parse_range
  rw [if_neg (ne_of_beq_false hstar), if_neg (by simp [hdig])]
  rcases hm : splitOnChar '-' r with _ | ⟨a, _ | ⟨b, _ | ⟨c3, t3⟩⟩⟩ <;>
    simp only [hm] at hmatch ⊢
  rw [if_neg (by simp [hmatch])]

theorem parse_range_named (r : List Char) (mn mx : Nat) (name : List Char) :
    (∃ vals, parse_range r mn mx name = .ok vals) ∨
    (∃ e, parse_range r mn mx name = .error e ∧ errField e = some name ∧
      errText e ≠ none) := by
  unfold parse_range
  split_ifs with h1 h2 h3
  · exact Or.inl ⟨_, rfl⟩
  · exact Or.inr ⟨_, rfl, rfl, by simp [errText]⟩
  · exact Or.inl ⟨_, rfl⟩
  · rcases hm : splitOnChar '-' r with _ | ⟨a, _ | ⟨b, _ | ⟨c3, t3⟩⟩⟩ <;>
      simp only [hm]
    · exact Or.inr ⟨_, rfl, rfl, by simp [errText]⟩
    · exact Or.inr ⟨_, rfl, rfl, by simp [errText]⟩
    · split_ifs with h4 h5
      · exact Or.inr ⟨_, rfl, rfl, by simp [errText]⟩
      · exact Or.inl ⟨_, rfl⟩
      · exact Or.inr ⟨_, rfl, rfl, by simp [errText]⟩
    · exact Or.inr ⟨_, rfl, rfl, by simp [errText]⟩

theorem parseParts_err (parts : List (List Char)) (mn mx : Nat)
    (name : List Char) (p : List Char) (hp : p ∈ parts)
    (he : ∃ e0, parse_part p mn mx name = .error e0) :
    ∃ e, parseParts parts mn mx name = .error e := by
  induction parts with
  | nil => cases hp
  | cons q qs ih =>
    cases hq : parse_part q mn mx name with
    | error e => exact ⟨e, by simp [parseParts, hq]⟩
    | ok vs =>
      rcases List.mem_cons.mp hp with rfl | hmem
      · obtain ⟨e0, he0⟩ := he
        rw [hq] at he0
        exact Except.noConfusion he0
      · obtain ⟨e, hee⟩ := ih hmem
        exact ⟨e, by simp [parseParts, hq, hee]⟩

theorem parse_field_err (f : List Char) (mn mx : Nat) (name p : List Char)
    (hp : p ∈ splitOnChar ',' f)
    (he : ∃ e0, parse_part p mn mx name = .error e0) :
    ∃ e, parse_field f mn mx name = .error e := by
  obtain ⟨e, hee⟩ := parseParts_err _ mn mx name p hp he
  exact ⟨e, by simp [parse_field, hee]⟩

theorem parse_part_shape_false (p : List Char) (mn mx : Nat)
    (name : List Char) (h : shapeOk p = false) :
    (∃ e, parse_part p mn mx name = .error e) ∧
    ((splitOnChar '/' p).length ≤ 2 →
      ∃ e, parse_part p mn mx name = .error e ∧ errField e = some name ∧
        errText e ≠ none) := by
  by_cases hc : '/' ∈ p
  · have hcb : p.contains '/' = true := List.elem_iff.mpr hc
    have hlen := splitOnChar_length_two '/' p hc
    rcases hsp : splitOnChar '/' p with _ | ⟨r, _ | ⟨s, _ | ⟨u3, t3⟩⟩⟩
    · rw [hsp] at hlen
      simp at hlen
    · rw [hsp] at hlen
      simp at hlen
    · simp only [shapeOk, hsp] at h
      have hred : parse_part p mn mx name =
          (match parse_range r mn mx name with
           | .error e => .error e
           | .ok vals =>
             if allDigits s = false ∨ toNatDigits s = 0 then
               .error (.invalidStep name s)
             else .ok (vals.filter (fun v => (v - mn) % toNatDigits s = 0))) := by
        unfold parse_part
        rw [if_pos hcb, hsp]
      cases hb : baseShape r with
      | false =>
        have her := parse_range_of_baseShape_false r mn mx name hb
        have hpp : parse_part p mn mx name = .error (.invalidRange name r) := by
          rw [hred, her]
        exact ⟨⟨_, hpp⟩, fun _ => ⟨_, hpp, rfl, by simp [errText]⟩⟩
      | true =>
        rw [hb, Bool.true_and] at h
        have hcond : allDigits s = false ∨ toNatDigits s = 0 := by
          rcases Bool.and_eq_false_iff.mp h with h' | h'
          · exact Or.inl h'
          · right
            simpa using h'
        rcases parse_range_named r mn mx name with ⟨vals, hok⟩ | ⟨e, herr, hef, het⟩
        · have hpp : parse_part p mn mx name = .error (.invalidStep name s) := by
            rw [hred, hok]
            show (if allDigits s = false ∨ toNatDigits s = 0 then
                Except.error (CronErr.invalidStep name s)
              else Except.ok
                (vals.filter (fun v => (v - mn) % toNatDigits s = 0))) =
              Except.error (CronErr.invalidStep name s)
            rw [if_pos hcond]
          exact ⟨⟨_, hpp⟩, fun _ => ⟨_, hpp, rfl, by simp [errText]⟩⟩
        · have hpp : parse_part p mn mx name = .error e := by
            rw [hred, herr]
          exact ⟨⟨_, hpp⟩, fun _ => ⟨_, hpp, hef, het⟩⟩
    · have hpp : parse_part p mn mx name = .error .unpack := by
        unfold parse_part
        rw [if_pos hcb, hsp]
      refine ⟨⟨_, hpp⟩, fun hle => ?_⟩
      simp only [List.length_cons] at hle
      omega
  · have hcb : p.contains '/' = false := contains_eq_false_of_not_mem p '/' hc
    have hsp : splitOnChar '/' p = [p] := splitOnChar_single '/' p hc
    simp only [shapeOk, hsp] at h
    have her := parse_range_of_baseShape_false p mn mx name h
    have hpp : parse_part p mn mx name = .error (.invalidRange name p) := by
      unfold parse_part
      rw [if_neg (fun hcontra => hc (List.elem_iff.mp hcontra))]
      exact her
    exact ⟨⟨_, hpp⟩, fun _ => ⟨_, hpp, rfl, by simp [errText]⟩⟩

/-! ### Resolver lemmas -/

theorem lookupPrefix_mem (table : List (List Char × Nat)) (k : List Char)
    (v : Nat) (rest : List Char)
    (hlen : ∀ kv ∈ table, (kv.1).length = 3)
    (hnd : (table.map Prod.fst).Nodup)
    (hk : (k, v) ∈ table) :
    lookupPrefix table (k ++ rest) = some (v, rest) := by
  induction table with
  | nil => cases hk
  | cons kv t ih =>
    obtain ⟨k', v'⟩ := kv
    rcases List.mem_cons.mp hk with heq | hmem
    · rw [Prod.mk.injEq] at heq
      obtain ⟨rfl, rfl⟩ := heq
      unfold lookupPrefix
      have hpre0 : k.isPrefixOf (k ++ rest) = true :=
        List.isPrefixOf_iff_prefix.mpr (List.prefix_append k rest)
      rw [if_pos hpre0]
      rw [List.drop_left]
    · have hk'len : k'.length = 3 := hlen (k', v') (List.mem_cons_self _ _)
      have hklen : k.length = 3 := hlen (k, v) (List.mem_cons_of_mem _ hmem)
      have hne : k' ≠ k := by
        rintro rfl
        have hmap : k' ∈ t.map Prod.fst := List.mem_map_of_mem Prod.fst hmem
        exact (List.nodup_cons.mp hnd).1 hmap
      have hnotpre : ¬ (k'.isPrefixOf (k ++ rest) = true) := by
        intro hpre
        have hp := List.isPrefixOf_iff_prefix.mp hpre
        rw [List.prefix_iff_eq_take] at hp
        have h2 : (k ++ rest).take k.length = k := List.take_left k rest
        rw [hklen] at h2
        rw [hk'len, h2] at hp
        exact hne hp
      unfold lookupPrefix
      rw [if_neg hnotpre]
      exact ih (fun kv h => hlen kv (List.mem_cons_of_mem _ h))
        (List.nodup_cons.mp hnd).2 hmem

theorem lookupPrefix_none (table : List (List Char × Nat)) (c : Char)
    (rest : List Char)
    (hup : ∀ kv ∈ table, ∃ d ds, kv.1 = d :: ds ∧ ('A' ≤ d ∧ d ≤ 'Z'))
    (hc : ¬('A' ≤ c ∧ c ≤ 'Z')) :
    lookupPrefix table (c :: rest) = none := by
  induction table with
  | nil => rfl
  | cons kv t ih =>
    obtain ⟨k', v'⟩ := kv
    obtain ⟨d, ds, hk, hd⟩ := hup (k', v') (List.mem_cons_self _ _)
    have hnotpre : ¬ (k'.isPrefixOf (c :: rest) = true) := by
      intro hpre
      have hk' : k' = d :: ds := hk
      rw [hk'] at hpre
      obtain ⟨t', ht⟩ := List.isPrefixOf_iff_prefix.mp hpre
      rw [List.cons_append] at ht
      injection ht with h1 _
      exact hc (h1 ▸ hd)
    unfold lookupPrefix
    rw [if_neg hnotpre]
    exact ih (fun kv h => hup kv (List.mem_cons_of_mem _ h))

theorem monthTable_len : ∀ kv ∈ monthTable, (kv.1).length = 3 := by decide

theorem monthTable_nodup : (monthTable.map Prod.fst).Nodup := by decide

theorem monthTable_upper :
    ∀ kv ∈ monthTable, ∃ d ds, kv.1 = d :: ds ∧ ('A' ≤ d ∧ d ≤ 'Z') := by
  intro kv hkv
  fin_cases hkv <;> exact ⟨_, _, rfl, by decide⟩

theorem dowTable_len : ∀ kv ∈ dowTable, (kv.1).length = 3 := by decide

theorem dowTable_nodup : (dowTable.map Prod.fst).Nodup := by decide

theorem dowTable_upper :
    ∀ kv ∈ dowTable, ∃ d ds, kv.1 = d :: ds ∧ ('A' ≤ d ∧ d ≤ 'Z') := by
  intro kv hkv
  fin_cases hkv <;> exact ⟨_, _, rfl, by decide⟩

theorem replaceNames_render (table : List (List Char × Nat))
    (hlen : ∀ kv ∈ table, (kv.1).length = 3)
    (hnd : (table.map Prod.fst).Nodup)
    (hup : ∀ kv ∈ table, ∃ d ds, kv.1 = d :: ds ∧ ('A' ≤ d ∧ d ≤ 'Z')) :
    ∀ toks fuel, toksOkB table toks = true →
      (renderToks toks).length ≤ fuel →
      replaceNames table fuel (renderToks toks) = renderNum toks := by
  intro toks
  induction toks with
  | nil =>
    intro fuel _ _
    show replaceNames table fuel [] = []
    cases fuel <;> rfl
  | cons tk ts ih =>
    intro fuel hok hfuel
    have hok' := hok
    simp only [toksOkB, List.all_cons, Bool.and_eq_true] at hok'
    obtain ⟨htk, hts⟩ := hok'
    have htsok : toksOkB table ts = true := hts
    cases tk with
    | inl kv =>
      obtain ⟨k, v⟩ := kv
      have hmem : (k, v) ∈ table := of_decide_eq_true htk
      have hk3 : k.length = 3 := hlen (k, v) hmem
      rcases k with _ | ⟨a, _ | ⟨b, _ | ⟨cc, krest⟩⟩⟩ <;> simp at hk3
      subst hk3
      simp only [renderToks, List.length_append, List.length_cons,
        List.length_nil] at hfuel
      cases fuel with
      | zero => omega
      | succ f =>
        have hlp := lookupPrefix_mem table [a, b, cc] v (renderToks ts)
          hlen hnd hmem
        simp only [List.cons_append, List.nil_append] at hlp
        show replaceNames table (f + 1) (a :: b :: cc :: renderToks ts) =
          natToDigits v ++ renderNum ts
        rw [replaceNames, hlp]
        have hts3 : (renderToks ts).length ≤ f := by omega
        show natToDigits v ++ replaceNames table f (renderToks ts) =
          natToDigits v ++ renderNum ts
        rw [ih f htsok hts3]
    | inr ch =>
      have hch : ¬('A' ≤ ch ∧ ch ≤ 'Z') := by
        have h' : ch < 'A' ∨ 'Z' < ch := by simpa using htk
        rintro ⟨h1, h2⟩
        rcases h' with h | h
        · exact absurd h1 (not_le.mpr h)
        · exact absurd h2 (not_le.mpr h)
      simp only [renderToks, List.length_cons] at hfuel
      cases fuel with
      | zero => omega
      | succ f =>
        have hlp := lookupPrefix_none table ch (renderToks ts) hup hch
        show replaceNames table (f + 1) (ch :: renderToks ts) =
          ch :: renderNum ts
        rw [replaceNames, hlp]
        have hts3 : (renderToks ts).length ≤ f := by omega
        rw [ih f htsok hts3]

theorem replace_month_string_toks (toks : List (List Char × Nat ⊕ Char))
    (hok : toksOkB monthTable toks = true) :
    replace_month_string (renderToks toks) = renderNum toks :=
  replaceNames_render monthTable monthTable_len monthTable_nodup
    monthTable_upper toks (renderToks toks).length hok (Nat.le_refl _)

theorem replace_dow_string_toks (toks : List (List Char × Nat ⊕ Char))
    (hok : toksOkB dowTable toks = true) :
    replace_dow_string (renderToks toks) = renderNum toks :=
  replaceNames_render dowTable dowTable_len dowTable_nodup
    dowTable_upper toks (renderToks toks).length hok (Nat.le_refl _)

/-! ### Claim theorems -/

/-- **C1**: the claim states that every timestamp emitted by `next()` has its
minute, hour, day, month and weekday in the parsed sets.  The code composes
`shift_time` and then `shift_date` once per `__next__` call without
re-looping, so whenever the date walk advances it emits a midnight
timestamp: for `"30 12 1 * *"` starting 2023-01-02 00:00 the first emission
is 2023-02-01 00:00, whose minute 0 is not in the parsed minute set `[30]`
and whose hour 0 is not in the parsed hour set `[12]`. -/
theorem c1_emission_escapes_minute_hour_sets :
    (parse_cron_expression ("30 12 1 * *".data) (mkDT 2023 1 2 0 0)).map
      (fun it => cronRun 100 it.sched 1 it.current) =
      .ok [mkDT 2023 2 1 0 0] ∧
    (parse_cron_expression ("30 12 1 * *".data) (mkDT 2023 1 2 0 0)).map
      (fun it => it.sched.minute) = .ok [30] ∧
    (parse_cron_expression ("30 12 1 * *".data) (mkDT 2023 1 2 0 0)).map
      (fun it => it.sched.hour) = .ok [12] ∧
    minuteOf (mkDT 2023 2 1 0 0) = 0 ∧ hourOf (mkDT 2023 2 1 0 0) = 0 ∧
    (0 : Nat) ∉ ([30] : List Nat) ∧ (0 : Nat) ∉ ([12] : List Nat) :=
  ⟨rfl, rfl, rfl, rfl, rfl, by decide, by decide⟩

/-- **C2**: the claim states that the date walk matches day-of-week under the
encoding Sunday = 0 .. Saturday = 6, so `"0 9 * * MON-FRI"` never fires on a
weekend.  The code tests `dt.weekday()` (Monday = 0 .. Sunday = 6) against
the set parsed from `DOW_MAP` (Sunday = 0), so `MON-FRI` = `{1..5}` matches
Tuesday through **Saturday**: starting Friday 2023-01-06 10:00 the first
emission is Saturday 2023-01-07 09:00, whose Sunday-0 weekday is 6 ∉
`{1..5}`. -/
theorem c2_dow_encoding_mismatch :
    (parse_cron_expression ("0 9 * * MON-FRI".data) (mkDT 2023 1 6 10 0)).map
      (fun it => cronRun 100 it.sched 1 it.current) =
      .ok [mkDT 2023 1 7 9 0] ∧
    (parse_cron_expression ("0 9 * * MON-FRI".data) (mkDT 2023 1 6 10 0)).map
      (fun it => it.sched.dow) = .ok [1, 2, 3, 4, 5] ∧
    sundayWeekday (mkDT 2023 1 7 9 0) = 6 ∧
    (6 : Nat) ∉ ([1, 2, 3, 4, 5] : List Nat) ∧
    weekdayPy (mkDT 2023 1 7 9 0) = 5 :=
  ⟨rfl, rfl, rfl, by decide, rfl⟩

/-- **C3**: for every schedule and cursor, the emitted sequence is strictly
increasing with no duplicates, and the first emission is strictly greater
than the start timestamp (already at minute precision in this model); the
cursor starts at start + 1 minute as in `__init__`. -/
theorem c3_strict_monotonic_progress (s : CronSched) (fuel n start : Nat) :
    List.Chain' (· < ·) (start :: cronRun fuel s n (start + 1)) := by
  refine List.chain'_cons'.mpr ⟨?_, (cronRun_mono fuel s n (start + 1)).1⟩
  intro y hy
  have := (cronRun_mono fuel s n (start + 1)).2 y (List.mem_of_mem_head? hy)
  omega

/-- **C4** counterexample: `parse_field("1-2/15", 0, 59, "minute")` succeeds
and returns the empty list — parsing does not fail rather than producing an
empty set. -/
theorem c4_counterexample_empty_parse :
    parse_field ("1-2/15".data) 0 59 ("minute".data) = .ok [] := rfl

/-- **C4** (amended): whenever `parse_field` succeeds the result is strictly
ascending (hence deduplicated) and every value lies within [min, max]; but
the result can be empty (see the counterexample), so non-emptiness is
dropped. -/
theorem c4_sorted_dedup_bounded (f : List Char) (mn mx : Nat)
    (name : List Char) (vals : List Nat)
    (h : parse_field f mn mx name = .ok vals) :
    List.Chain' (· < ·) vals ∧ ∀ v ∈ vals, mn ≤ v ∧ v ≤ mx := by
  unfold parse_field at h
  split at h
  · exact Except.noConfusion h
  · rename_i res hres
    cases h
    refine ⟨chain'_sortedSet res, ?_⟩
    intro v hv
    exact parseParts_bounds _ mn mx name res hres v ((mem_sortedSet v res).mp hv)

/-- **C4** witness: the amended theorem applied to `"10-12,5"` over [0,23]. -/
theorem c4_witness :
    List.Chain' (· < ·) ([5, 10, 11, 12] : List Nat) ∧
    ∀ v ∈ ([5, 10, 11, 12] : List Nat), 0 ≤ v ∧ v ≤ 23 :=
  c4_sorted_dedup_bounded ("10-12,5".data) 0 23 ("hour".data) [5, 10, 11, 12]
    rfl

/-- **C5**: for an atom `base/S` with `S` a positive integer, the parsed
result is exactly the base atom's values filtered by
`(v - min) mod S = 0` — step filtering is relative to the domain minimum. -/
theorem c5_step_filters_from_min (r s : List Char) (mn mx : Nat)
    (name : List Char) (hr : '/' ∉ r) (hs : '/' ∉ s)
    (hd : allDigits s = true) (hpos : 0 < toNatDigits s) :
    parse_part (r ++ '/' :: s) mn mx name =
      (parse_range r mn mx name).map
        (List.filter (fun v => decide ((v - mn) % toNatDigits s = 0))) := by
  have hsp : splitOnChar '/' (r ++ '/' :: s) = [r, s] :=
    splitOnChar_pair '/' r s hr hs
  have hcb : (r ++ '/' :: s).contains '/' = true :=
    List.elem_iff.mpr (by simp)
  unfold parse_part
  rw [if_pos hcb, hsp]
  show (match parse_range r mn mx name with
    | Except.error e => Except.error e
    | Except.ok vals =>
      if allDigits s = false ∨ toNatDigits s = 0 then
        Except.error (CronErr.invalidStep name s)
      else Except.ok (vals.filter (fun v => (v - mn) % toNatDigits s = 0))) =
    (parse_range r mn mx name).map
      (List.filter (fun v => decide ((v - mn) % toNatDigits s = 0)))
  cases hpr : parse_range r mn mx name with
  | error e => rfl
  | ok vals =>
    show (if allDigits s = false ∨ toNatDigits s = 0 then
        Except.error (CronErr.invalidStep name s)
      else Except.ok (vals.filter (fun v => (v - mn) % toNatDigits s = 0))) = _
    have hcond : ¬(allDigits s = false ∨ toNatDigits s = 0) := by
      rintro (hx | hx)
      · rw [hd] at hx
        exact Bool.noConfusion hx
      · omega
    rw [if_neg hcond]
    rfl

/-- **C5** witness: `"*/15"` over hours [0,23] and minutes [0,59] — the
filter keeps `{0,15}` resp. `[0,15,30,45]`. -/
theorem c5_witness :
    parse_part ("*/15".data) 0 23 ("hour".data) =
      (parse_range ("*".data) 0 23 ("hour".data)).map
        (List.filter (fun v => decide ((v - 0) % toNatDigits ("15".data) = 0))) ∧
    parse_field ("*/15".data) 0 23 ("hour".data) = .ok [0, 15] ∧
    parse_field ("*/15".data) 0 59 ("minute".data) = .ok [0, 15, 30, 45] := by
  refine ⟨?_, rfl, rfl⟩
  exact c5_step_filters_from_min ("*".data) ("15".data) 0 23 ("hour".data)
    (by decide) (by decide) (by decide) (by decide)

/-- **C6** counterexample: over the month-like domain [1,12] with sorted
candidates `[1]` and current 12 (no candidate ≥ current), the code returns
`1 + 12 + 1 + 1 - 12 = 3`, while the ring-of-width `max - min + 1` delta is
`1 + (12 - 1 + 1) - 12 = 1`; the two differ, so the claimed equality fails
whenever min ≠ 0. -/
theorem c6_counterexample_ring_formula :
    to_next_value 12 [1] 1 12 = 3 ∧ 1 + (12 - 1 + 1) - 12 = 1 ∧
    (∀ c ∈ ([1] : List Nat), 1 ≤ c ∧ c ≤ 12) ∧
    (∀ c ∈ ([1] : List Nat), c < 12) ∧ (3 : Nat) ≠ 1 := by decide

/-- **C6** (amended): in the wrap case the search returns
`candidates[0] + max + min + 1 - current` as the claim states, and this
equals the ring-of-width `max - min + 1` delta exactly when min = 0 (the
only case the code uses: minutes and hours). -/
theorem c6_wrap_formula (cur : Nat) (cands : List Nat) (mn mx : Nat)
    (hne : cands ≠ []) (hsort : List.Chain' (· ≤ ·) cands)
    (hb : ∀ c ∈ cands, mn ≤ c ∧ c ≤ mx)
    (hcur1 : mn ≤ cur) (hcur2 : cur ≤ mx)
    (hlt : ∀ c ∈ cands, c < cur) :
    to_next_value cur cands mn mx = cands.headD 0 + mx + mn + 1 - cur ∧
    (mn = 0 →
      to_next_value cur cands mn mx =
        cands.headD 0 + (mx - mn + 1) - cur) := by
  have hnone : (pySorted cands).find? (fun c => cur ≤ c) = none := by
    rw [List.find?_eq_none]
    intro x hx
    have := hlt x ((mem_pySorted x cands).mp hx)
    simp only [decide_eq_true_eq]
    omega
  unfold to_next_value
  rw [hnone]
  constructor
  · rfl
  · intro h0
    subst h0
    show cands.headD 0 + mx + 0 + 1 - cur = cands.headD 0 + (mx - 0 + 1) - cur
    omega

/-- **C6** witness: the amended theorem at current 50, candidates `[10,20]`,
domain [0,59]: both formulas give 20. -/
theorem c6_witness :
    to_next_value 50 [10, 20] 0 59 = [10, 20].headD 0 + 59 + 0 + 1 - 50 ∧
    (0 = 0 → to_next_value 50 [10, 20] 0 59 =
      [10, 20].headD 0 + (59 - 0 + 1) - 50) :=
  c6_wrap_formula 50 [10, 20] 0 59 (by decide)
    (by simp [List.chain'_cons]) (by decide) (by decide) (by decide)
    (by decide)

/-- **C7** (amended): an atom matching none of the four shapes always makes
`parse_part` (and hence `parse_field` and `parse_cron_expression`) fail; the
error names the offending field and carries offending text whenever the atom
holds at most one `/`; an atom with two or more `/` fails with the anonymous
unpacking `ValueError`, which names no field (see the counterexample). -/
theorem c7_invalid_atom_fails (p : List Char) (mn mx : Nat) (name : List Char)
    (h : shapeOk p = false) :
    (∃ e, parse_part p mn mx name = .error e) ∧
    ((splitOnChar '/' p).length ≤ 2 →
      ∃ e, parse_part p mn mx name = .error e ∧ errField e = some name ∧
        errText e ≠ none) ∧
    (∀ f, p ∈ splitOnChar ',' f → ∃ e, parse_field f mn mx name = .error e) ∧
    (∀ expr f0 f1 f2 f3 f4 start, splitWs expr = [f0, f1, f2, f3, f4] →
      p ∈ splitOnChar ',' f0 →
      ∃ e, parse_cron_expression expr start = .error e) := by
  obtain ⟨h1, h2⟩ := parse_part_shape_false p mn mx name h
  refine ⟨h1, h2, ?_, ?_⟩
  · intro f hp
    exact parse_field_err f mn mx name p hp h1
  · intro expr f0 f1 f2 f3 f4 start hspl hp
    obtain ⟨e0, he0⟩ := (parse_part_shape_false p 0 59 ("minute".data) h).1
    obtain ⟨e, hfe⟩ := parse_field_err f0 0 59 ("minute".data) p hp ⟨e0, he0⟩
    refine ⟨e, ?_⟩
    unfold parse_cron_expression
    rw [hspl]
    simp [hfe]

/-- **C7** counterexample: the atom `"1/2/3"` matches no valid shape, and
parsing fails with the anonymous unpacking error, whose message names no
field. -/
theorem c7_counterexample_unpack :
    shapeOk ("1/2/3".data) = false ∧
    parse_part ("1/2/3".data) 0 59 ("minute".data) = .error .unpack ∧
    errField CronErr.unpack = none :=
  ⟨by decide, rfl, rfl⟩

/-- **C7** witness: the amended theorem at the invalid atom `"x"` in the
minute field. -/
theorem c7_witness :
    (∃ e, parse_part ("x".data) 0 59 ("minute".data) = .error e) ∧
    (∃ e, parse_part ("x".data) 0 59 ("minute".data) = .error e ∧
      errField e = some ("minute".data) ∧ errText e ≠ none) ∧
    (∃ e, parse_field ("a,x".data) 0 59 ("minute".data) = .error e) ∧
    (∃ e, parse_cron_expression ("x * * * *".data) 0 = .error e) := by
  have h := c7_invalid_atom_fails ("x".data) 0 59 ("minute".data) (by decide)
  refine ⟨h.1, h.2.1 (by decide), h.2.2.1 ("a,x".data) (by decide), ?_⟩
  exact h.2.2.2 ("x * * * *".data) ("x".data) ("*".data) ("*".data)
    ("*".data) ("*".data) 0 (by decide) (by decide)

/-- **C8**: `"*/15 * * * *"` from 2023-01-01 00:05 yields 00:15, 00:30,
00:45, then 01:00. -/
theorem c8_quarter_hour_scenario :
    (parse_cron_expression ("*/15 * * * *".data) (mkDT 2023 1 1 0 5)).map
      (fun it => cronRun 40 it.sched 4 it.current) =
      .ok [mkDT 2023 1 1 0 15, mkDT 2023 1 1 0 30, mkDT 2023 1 1 0 45,
        mkDT 2023 1 1 1 0] := rfl

/-- **C9**: resolving month (resp. day-of-week) names and then parsing gives
the same parsed field as parsing the equivalent numeric text directly, for
every field text assembled from table names and non-upper-case plain
characters. -/
theorem c9_resolve_then_parse_roundtrip
    (toksM toksD : List (List Char × Nat ⊕ Char)) (mn mx mnD mxD : Nat)
    (name nameD : List Char)
    (hokM : toksOkB monthTable toksM = true)
    (hokD : toksOkB dowTable toksD = true) :
    parse_field (replace_month_string (renderToks toksM)) mn mx name =
      parse_field (renderNum toksM) mn mx name ∧
    parse_field (replace_dow_string (renderToks toksD)) mnD mxD nameD =
      parse_field (renderNum toksD) mnD mxD nameD := by
  rw [replace_month_string_toks toksM hokM, replace_dow_string_toks toksD hokD]
  exact ⟨rfl, rfl⟩

/-- **C9** witness: `"JAN,MAR"` ≡ `"1,3"` over [1,12] and `"MON-FRI"` ≡
`"1-5"` over [0,7]. -/
theorem c9_witness :
    parse_field (replace_month_string ("JAN,MAR".data)) 1 12 ("month".data) =
      parse_field ("1,3".data) 1 12 ("month".data) ∧
    parse_field (replace_dow_string ("MON-FRI".data)) 0 7
        ("day of week".data) =
      parse_field ("1-5".data) 0 7 ("day of week".data) :=
  c9_resolve_then_parse_roundtrip
    [.inl ("JAN".data, 1), .inr ',', .inl ("MAR".data, 3)]
    [.inl ("MON".data, 1), .inr '-', .inl ("FRI".data, 5)]
    1 12 0 7 ("month".data) ("day of week".data) (by decide) (by decide)

/-- **C10**: with non-empty sorted in-domain minute/hour sets, `shift_time`
and `shift_date` never move backwards; hence the defensive `dt < current`
check in `__next__` never fires and `next()` never signals end-of-sequence
when the date walk returns at all. -/
theorem c10_advancers_never_go_back (minutes hours dom mon dow : List Nat)
    (hmne : minutes ≠ []) (hmb : ∀ v ∈ minutes, v ≤ 59)
    (hms : List.Chain' (· ≤ ·) minutes)
    (hhne : hours ≠ []) (hhb : ∀ v ∈ hours, v ≤ 23)
    (hhs : List.Chain' (· ≤ ·) hours) :
    (∀ t, t ≤ shift_time t minutes hours) ∧
    (∀ fuel t t', shift_date fuel t dom mon dow = some t' → t ≤ t') ∧
    (∀ fuel cur dt,
      shift_date fuel (shift_time cur minutes hours) dom mon dow = some dt →
      ¬ dt < cur ∧
      cron_next fuel ⟨minutes, hours, dom, mon, dow⟩ cur = some dt) := by
  refine ⟨fun t => shift_time_ge t minutes hours hmne hmb,
    fun fuel t t' h => shift_date_ge fuel t dom mon dow t' h, ?_⟩
  intro fuel cur dt h
  have h1 : cur ≤ shift_time cur minutes hours :=
    shift_time_ge cur minutes hours hmne hmb
  have h2 := shift_date_ge fuel (shift_time cur minutes hours) dom mon dow dt h
  have hnl : ¬ dt < cur := by omega
  refine ⟨hnl, ?_⟩
  show (match shift_date fuel (shift_time cur minutes hours) dom mon dow with
    | none => none
    | some dt => if dt < cur then none else some dt) = some dt
  rw [h]
  show (if dt < cur then none else some dt) = some dt
  rw [if_neg hnl]

/-- **C10** witness: the theorem at minute set `[0]`, hour set `[0]`,
day/month sets `[1]`, full day-of-week set, cursor 2023-01-01 00:00. -/
theorem c10_witness :
    mkDT 2023 1 1 0 0 ≤ shift_time (mkDT 2023 1 1 0 0) [0] [0] ∧
    cron_next 1 ⟨[0], [0], [1], [1], [0, 1, 2, 3, 4, 5, 6]⟩
      (mkDT 2023 1 1 0 0) = some (mkDT 2023 1 1 0 0) := by
  have h := c10_advancers_never_go_back [0] [0] [1] [1] [0, 1, 2, 3, 4, 5, 6]
    (by decide) (by decide) (List.chain'_singleton 0) (by decide) (by decide)
    (List.chain'_singleton 0)
  refine ⟨h.1 (mkDT 2023 1 1 0 0), ?_⟩
  exact (h.2.2 1 (mkDT 2023 1 1 0 0) (mkDT 2023 1 1 0 0) rfl).2
